import Mathlib

/-!
Verification of the benchmarkff analysis scripts.

This file gives a shallow embedding, in Lean 4, of the logic of the two
scripts of the repository:

* `03_analysis/tailed_parameters.py` — the outlier-parameter analyzer
  (namespace `TailedParameters`);
* `02_calc/minimize_ffs.py` — the conformer minimizer CLI
  (namespace `MinimizeFFS`).

Machine floats of the scripts are modelled as rationals (the scripts only
compare and divide metric values, never accumulate rounding), Python
dictionaries as association lists with last-write-wins insertion, numpy
index arrays as lists of naturals, and the external chemistry toolkits as
opaque data carried through the bookkeeping that the scripts themselves
perform.  Theorems about each claim follow the definitions.
-/

open List

namespace TailedParameters

/-! ### Natural sort (`natural_keys`, tailed_parameters.py lines 46-53)

`natural_keys` splits a string into alternating non-digit/digit runs,
that is `re.split` on the capturing pattern `(\d+)`, and maps every run
through `atoi`.  A digit run becomes an integer, every other chunk stays
a string.  We model a key token as `ℕ ⊕ₗ List Char`: digit runs land in
the left (numeric) summand, other runs in the right (lexicographic)
summand; the lexicographic order on `List (ℕ ⊕ₗ List Char)` is exactly
Python list comparison on the mixed keys (positions of equal parity
always carry the same constructor, so the cross-constructor ordering is
never exercised). -/

/-- One token of a natural-sort key: a digit run (numeric) or a non-digit
run (a plain character string). -/
abbrev NatKeyTok : Type := ℕ ⊕ₗ List Char

/-- A natural-sort key: the alternating token list produced by `re.split`
on `(\d+)` after `atoi`. -/
abbrev NatKey : Type := List NatKeyTok

/-- `int(text)` on a run of decimal digit characters. -/
def digitsToNat (ds : List Char) : ℕ :=
  ds.foldl (fun n c => 10 * n + (c.toNat - 48)) 0

/-- The splitter behind `natural_keys`, on the character list of the input:
take the maximal non-digit run, then the maximal digit run, and repeat.
`re.split` with a capturing group keeps both kinds of run, producing an
alternating list that begins and ends with a (possibly empty) non-digit
chunk.  The first argument is recursion fuel; `natKeysAux` consumes at
least one character per round, so `length + 1` fuel always suffices. -/
def natKeysAux : ℕ → List Char → NatKey
  | 0, _ => []
  | fuel + 1, cs =>
    let rest := cs.dropWhile (fun c => !c.isDigit)
    match rest with
    | [] => [toLex (Sum.inr (cs.takeWhile (fun c => !c.isDigit)))]
    | _ :: _ =>
      toLex (Sum.inr (cs.takeWhile (fun c => !c.isDigit)))
        :: toLex (Sum.inl (digitsToNat (rest.takeWhile Char.isDigit)))
        :: natKeysAux fuel (rest.dropWhile Char.isDigit)

/-- `natural_keys(text)` (lines 46-53): the sort key used for parameter
identifiers. -/
def natural_keys (s : String) : NatKey :=
  natKeysAux (s.data.length + 1) s.data

/-- The comparison `full_params.sort(key=natural_keys)` effectively uses:
key of the first argument not greater than key of the second. -/
def natLe (a b : String) : Bool :=
  decide (natural_keys a ≤ natural_keys b)

/-- `full_params.sort(key=natural_keys)` (line 266): Python list.sort is a
stable comparison sort; `List.mergeSort` is the standard stable model. -/
def sortByNaturalKeys (l : List String) : List String :=
  l.mergeSort natLe

theorem natLe_trans : ∀ (a b c : String), natLe a b → natLe b c → natLe a c := by
  intro a b c h1 h2
  simp only [natLe, decide_eq_true_eq] at h1 h2 ⊢
  exact le_trans h1 h2

theorem natLe_total : ∀ (a b : String), natLe a b || natLe b a := by
  intro a b
  simp only [natLe, Bool.or_eq_true, decide_eq_true_eq]
  exact le_total _ _

unseal List.merge List.mergeSort in
/-- **C4**: sorting parameter identifiers with `natural_keys` splits each
identifier into alternating non-digit/digit runs (digit runs compared
numerically, non-digit runs lexically), the resulting sort is a stable
permutation that is sorted under the natural-key order for every input
list, and sorting `["a10", "a2", "a1"]` yields `["a1", "a2", "a10"]`,
with the key of `"a2"` strictly preceding the key of `"a10"`. -/
theorem natural_sort_correct :
    (∀ l : List String, sortByNaturalKeys l ~ l)
    ∧ (∀ l : List String,
        (sortByNaturalKeys l).Pairwise (fun a b => natural_keys a ≤ natural_keys b))
    ∧ (∀ (l : List String) (a b : String),
        natural_keys a ≤ natural_keys b → [a, b] <+ l → [a, b] <+ sortByNaturalKeys l)
    ∧ sortByNaturalKeys ["a10", "a2", "a1"] = ["a1", "a2", "a10"]
    ∧ natural_keys "a2" ≤ natural_keys "a10"
    ∧ ¬ natural_keys "a10" ≤ natural_keys "a2"
    ∧ natural_keys "a10" = [toLex (Sum.inr ['a']), toLex (Sum.inl 10), toLex (Sum.inr [])]
    ∧ natural_keys "a2" = [toLex (Sum.inr ['a']), toLex (Sum.inl 2), toLex (Sum.inr [])] := by
  refine ⟨fun l => List.mergeSort_perm l natLe, fun l => ?_, fun l a b hab hsub => ?_,
    by decide, by decide, by decide, by decide, by decide⟩
  · have h := @List.sorted_mergeSort String natLe natLe_trans natLe_total l
    exact h.imp (fun hab => by simpa [natLe, decide_eq_true_eq] using hab)
  · exact List.pair_sublist_mergeSort natLe_trans natLe_total
      (by simpa [natLe, decide_eq_true_eq] using hab) hsub

/-- Witness for **C4**: the stability clause applied at a concrete list. -/
theorem natural_sort_correct_witness :
    (natural_keys "a2" ≤ natural_keys "a10")
    ∧ (["a2", "a10"] <+ ["a2", "b7", "a10"])
    ∧ ["a2", "a10"] <+ sortByNaturalKeys ["a2", "b7", "a10"] :=
  ⟨by decide, by decide,
    natural_sort_correct.2.2.1 ["a2", "b7", "a10"] "a2" "a10" (by decide) (by decide)⟩

/-! ### The read loop of `tailed_parameters` (lines 190-238)

The loop walks every conformer of the input file, reads the metric value
from the SDF tag and the SMILES identifier from the SMILES tag, and

* when `value >= cutoff`, stores the record (metric and structure) into
  the ordered dictionary `mols_out` under the SMILES key and increments
  `count_out`;
* always stores the structure into `mols_all` under the SMILES key,
  appends the SMILES to `all_smiles`, and increments `count_all`.

A conformer is modelled by its SMILES tag, its metric value, and an
opaque structure handle (`sid`, standing for the `OEGraphMol` copy). -/

/-- One conformer of the input SDF file: the value of the SMILES tag, the
value of the metric tag, and the opaque structure handle. -/
structure Conformer where
  smiles : String
  metric : ℚ
  sid : ℕ
deriving DecidableEq

/-- Python dictionary assignment `d[k] = v` on an association list whose
keys are pairwise distinct: replace the value of an existing key in
place, else append the new pair.  `OrderedDict` keeps the original
position of an updated key. -/
def odInsert {β : Type} : List (String × β) → String → β → List (String × β)
  | [], k, v => [(k, v)]
  | (k', v') :: rest, k, v =>
    if k' = k then (k, v) :: rest else (k', v') :: odInsert rest k v

/-- Python `k in d` for the association-list model of a dictionary. -/
def hasKey {β : Type} (d : List (String × β)) (k : String) : Bool :=
  d.any (fun p => p.1 == k)

/-- An entry of `mols_out`: the dictionary with keys `metric` and
`structure`. -/
abbrev OutEntry : Type := ℚ × ℕ

/-- An entry of `mols_all`: the dictionary with the single key
`structure`. -/
abbrev AllEntry : Type := ℕ

/-- The accumulator state of the read loop (lines 198-202). -/
structure TPState where
  mols_all : List (String × AllEntry)
  mols_out : List (String × OutEntry)
  all_smiles : List String
  count_all : ℕ
  count_out : ℕ
deriving DecidableEq

/-- Initial state: empty ordered dictionaries and zero counters. -/
def tpInit : TPState := ⟨[], [], [], 0, 0⟩

/-- The conditional branch of the loop body (lines 210-212): record the
conformer into the outlier dictionary when its metric reaches the
cutoff. -/
def tpStepOut (cutoff : ℚ) (s : TPState) (c : Conformer) : TPState :=
  if c.metric ≥ cutoff then
    { s with mols_out := odInsert s.mols_out c.smiles (c.metric, c.sid),
             count_out := s.count_out + 1 }
  else s

/-- The complete loop body (lines 204-216): the conditional outlier
update, then the unconditional updates of `mols_all`, `all_smiles` and
`count_all`. -/
def tpStep (cutoff : ℚ) (s : TPState) (c : Conformer) : TPState :=
  let s1 := tpStepOut cutoff s c
  { s1 with mols_all := odInsert s1.mols_all c.smiles c.sid,
            all_smiles := s1.all_smiles ++ [c.smiles],
            count_all := s1.count_all + 1 }

/-- The read loop of `tailed_parameters` over the flattened sequence of
conformers of the input file. -/
def tpScan (cutoff : ℚ) (confs : List Conformer) : TPState :=
  confs.foldl (tpStep cutoff) tpInit

theorem hasKey_iff {β : Type} {d : List (String × β)} {q : String} :
    hasKey d q = true ↔ ∃ w, (q, w) ∈ d := by
  simp only [hasKey, List.any_eq_true, beq_iff_eq]
  constructor
  · rintro ⟨⟨a, b⟩, hm, rfl⟩
    exact ⟨b, hm⟩
  · rintro ⟨w, hm⟩
    exact ⟨(q, w), hm, rfl⟩

theorem mem_odInsert_self {β : Type} (d : List (String × β)) (k : String) (v : β) :
    ∃ w, (k, w) ∈ odInsert d k v := by
  induction d with
  | nil => exact ⟨v, by simp [odInsert]⟩
  | cons p rest ih =>
    obtain ⟨k', v'⟩ := p
    by_cases hk : k' = k
    · exact ⟨v, by simp [odInsert, hk]⟩
    · obtain ⟨w, hw⟩ := ih
      exact ⟨w, by simp only [odInsert, if_neg hk]; exact List.mem_cons_of_mem _ hw⟩

theorem mem_odInsert_of_mem {β : Type} {d : List (String × β)} {q : String} {w : β}
    (k : String) (v : β) (h : (q, w) ∈ d) :
    ∃ w', (q, w') ∈ odInsert d k v := by
  induction d with
  | nil => cases h
  | cons p rest ih =>
    obtain ⟨k', v'⟩ := p
    rcases List.mem_cons.mp h with h1 | h1
    · by_cases hk : k' = k
      · refine ⟨v, ?_⟩
        have hq : q = k := (congrArg Prod.fst h1).trans hk
        simp [odInsert, hk, hq]
      · exact ⟨w, by simp only [odInsert, if_neg hk]; exact List.mem_cons.mpr (Or.inl h1)⟩
    · by_cases hk : k' = k
      · exact ⟨w, by simp only [odInsert, if_pos hk]; exact List.mem_cons_of_mem _ h1⟩
      · obtain ⟨w', hw'⟩ := ih h1
        exact ⟨w', by simp only [odInsert, if_neg hk]; exact List.mem_cons_of_mem _ hw'⟩

theorem mem_odInsert {β : Type} {d : List (String × β)} {k q : String} {v w : β}
    (h : (q, w) ∈ odInsert d k v) : (q, w) ∈ d ∨ (q = k ∧ w = v) := by
  induction d with
  | nil =>
    simp only [odInsert, List.mem_singleton, Prod.mk.injEq] at h
    exact Or.inr h
  | cons p rest ih =>
    obtain ⟨k', v'⟩ := p
    by_cases hk : k' = k
    · rw [odInsert, if_pos hk] at h
      rcases List.mem_cons.mp h with h1 | h1
      · obtain ⟨hq, hw⟩ := Prod.mk.injEq .. ▸ h1
        exact Or.inr ⟨hq, hw⟩
      · exact Or.inl (List.mem_cons_of_mem _ h1)
    · rw [odInsert, if_neg hk] at h
      rcases List.mem_cons.mp h with h1 | h1
      · exact Or.inl (List.mem_cons.mpr (Or.inl h1))
      · rcases ih h1 with h2 | h2
        · exact Or.inl (List.mem_cons_of_mem _ h2)
        · exact Or.inr h2

theorem hasKey_odInsert_of_hasKey {β : Type} {d : List (String × β)} {q : String}
    (k : String) (v : β) (h : hasKey d q = true) :
    hasKey (odInsert d k v) q = true := by
  obtain ⟨w, hw⟩ := hasKey_iff.mp h
  obtain ⟨w', hw'⟩ := mem_odInsert_of_mem k v hw
  exact hasKey_iff.mpr ⟨w', hw'⟩

theorem hasKey_odInsert_self {β : Type} (d : List (String × β)) (k : String) (v : β) :
    hasKey (odInsert d k v) k = true :=
  hasKey_iff.mpr (mem_odInsert_self d k v)

theorem tpStepOut_mols_all (cutoff : ℚ) (s : TPState) (c : Conformer) :
    (tpStepOut cutoff s c).mols_all = s.mols_all := by
  unfold tpStepOut
  split <;> rfl

theorem tpStepOut_count_all (cutoff : ℚ) (s : TPState) (c : Conformer) :
    (tpStepOut cutoff s c).count_all = s.count_all := by
  unfold tpStepOut
  split <;> rfl

theorem tpStep_mols_out (cutoff : ℚ) (s : TPState) (c : Conformer) :
    (tpStep cutoff s c).mols_out = (tpStepOut cutoff s c).mols_out := rfl

theorem tpStep_count_out (cutoff : ℚ) (s : TPState) (c : Conformer) :
    (tpStep cutoff s c).count_out = (tpStepOut cutoff s c).count_out := rfl

theorem tpStep_mols_all (cutoff : ℚ) (s : TPState) (c : Conformer) :
    (tpStep cutoff s c).mols_all = odInsert s.mols_all c.smiles c.sid := by
  show odInsert (tpStepOut cutoff s c).mols_all c.smiles c.sid = _
  rw [tpStepOut_mols_all]

theorem tpStep_count_all (cutoff : ℚ) (s : TPState) (c : Conformer) :
    (tpStep cutoff s c).count_all = s.count_all + 1 := by
  show (tpStepOut cutoff s c).count_all + 1 = _
  rw [tpStepOut_count_all]

theorem tp_out_sound_aux (cutoff : ℚ) :
    ∀ (confs : List Conformer) (s : TPState),
      (∀ (k : String) (m : ℚ) (sid : ℕ), (k, (m, sid)) ∈ s.mols_out → m ≥ cutoff) →
      ∀ (k : String) (m : ℚ) (sid : ℕ),
        (k, (m, sid)) ∈ (confs.foldl (tpStep cutoff) s).mols_out → m ≥ cutoff := by
  intro confs
  induction confs with
  | nil => intro s hs; simpa using hs
  | cons c confs ih =>
    intro s hs
    rw [List.foldl_cons]
    apply ih
    intro k m sid hm
    rw [tpStep_mols_out] at hm
    unfold tpStepOut at hm
    by_cases hc : c.metric ≥ cutoff
    · rw [if_pos hc] at hm
      simp only at hm
      rcases mem_odInsert hm with h | ⟨_, hv⟩
      · exact hs _ _ _ h
      · have : m = c.metric := congrArg Prod.fst hv
        rw [this]
        exact hc
    · rw [if_neg hc] at hm
      exact hs _ _ _ hm

theorem tp_hasKey_out_mono (cutoff : ℚ) :
    ∀ (confs : List Conformer) (s : TPState) (q : String),
      hasKey s.mols_out q = true →
      hasKey ((confs.foldl (tpStep cutoff) s)).mols_out q = true := by
  intro confs
  induction confs with
  | nil => intro s q h; simpa using h
  | cons c confs ih =>
    intro s q h
    rw [List.foldl_cons]
    apply ih
    rw [tpStep_mols_out]
    unfold tpStepOut
    by_cases hc : c.metric ≥ cutoff
    · rw [if_pos hc]
      exact hasKey_odInsert_of_hasKey _ _ h
    · rw [if_neg hc]
      exact h

theorem tp_hasKey_all_mono (cutoff : ℚ) :
    ∀ (confs : List Conformer) (s : TPState) (q : String),
      hasKey s.mols_all q = true →
      hasKey ((confs.foldl (tpStep cutoff) s)).mols_all q = true := by
  intro confs
  induction confs with
  | nil => intro s q h; simpa using h
  | cons c confs ih =>
    intro s q h
    rw [List.foldl_cons]
    apply ih
    rw [tpStep_mols_all]
    exact hasKey_odInsert_of_hasKey _ _ h

theorem tp_out_complete_aux (cutoff : ℚ) :
    ∀ (confs : List Conformer) (s : TPState) (c : Conformer),
      c ∈ confs → c.metric ≥ cutoff →
      hasKey ((confs.foldl (tpStep cutoff) s)).mols_out c.smiles = true := by
  intro confs
  induction confs with
  | nil => intro s c h; cases h
  | cons c' confs ih =>
    intro s c hmem hc
    rcases List.mem_cons.mp hmem with h | h
    · subst h
      rw [List.foldl_cons]
      apply tp_hasKey_out_mono
      rw [tpStep_mols_out]
      unfold tpStepOut
      rw [if_pos hc]
      exact hasKey_odInsert_self _ _ _
    · rw [List.foldl_cons]
      exact ih _ _ h hc

theorem tp_all_complete_aux (cutoff : ℚ) :
    ∀ (confs : List Conformer) (s : TPState) (c : Conformer),
      c ∈ confs →
      hasKey ((confs.foldl (tpStep cutoff) s)).mols_all c.smiles = true := by
  intro confs
  induction confs with
  | nil => intro s c h; cases h
  | cons c' confs ih =>
    intro s c hmem
    rcases List.mem_cons.mp hmem with h | h
    · subst h
      rw [List.foldl_cons]
      apply tp_hasKey_all_mono
      rw [tpStep_mols_all]
      exact hasKey_odInsert_self _ _ _
    · rw [List.foldl_cons]
      exact ih _ _ h

/-- **C1**: for every conformer sequence and cutoff, the read loop of
`tailed_parameters` is sound and complete for the outlier partition:
every record stored in `mols_out` has metric at least the cutoff, every
processed conformer whose metric reaches the cutoff has its SMILES key in
`mols_out`, and every processed conformer has its SMILES key in
`mols_all`. -/
theorem tailed_partition_sound_complete (cutoff : ℚ) (confs : List Conformer) :
    (∀ (k : String) (m : ℚ) (sid : ℕ),
        (k, (m, sid)) ∈ (tpScan cutoff confs).mols_out → m ≥ cutoff)
    ∧ (∀ c ∈ confs, c.metric ≥ cutoff →
        hasKey (tpScan cutoff confs).mols_out c.smiles = true)
    ∧ (∀ c ∈ confs, hasKey (tpScan cutoff confs).mols_all c.smiles = true) :=
  ⟨tp_out_sound_aux cutoff confs tpInit (fun k m sid h => by cases h),
   fun c hc hm => tp_out_complete_aux cutoff confs tpInit c hc hm,
   fun c hc => tp_all_complete_aux cutoff confs tpInit c hc⟩

/-- Witness for **C1**: the completeness clause at a concrete run. -/
theorem tailed_partition_sound_complete_witness :
    (Conformer.mk "A" 2 0 ∈ [Conformer.mk "A" 2 0, Conformer.mk "B" 0 1])
    ∧ ((Conformer.mk "A" 2 0).metric ≥ (1 : ℚ))
    ∧ hasKey (tpScan 1 [Conformer.mk "A" 2 0, Conformer.mk "B" 0 1]).mols_out "A" = true :=
  ⟨by decide, by decide,
    (tailed_partition_sound_complete 1 [Conformer.mk "A" 2 0, Conformer.mk "B" 0 1]).2.1
      (Conformer.mk "A" 2 0) (by decide) (by decide)⟩

theorem tp_count_aux (cutoff : ℚ) :
    ∀ (confs : List Conformer) (s : TPState),
      (confs.foldl (tpStep cutoff) s).count_all = s.count_all + confs.length
      ∧ (confs.foldl (tpStep cutoff) s).count_out
          = s.count_out + (confs.filter (fun c => decide (c.metric ≥ cutoff))).length := by
  intro confs
  induction confs with
  | nil => intro s; simp
  | cons c confs ih =>
    intro s
    rw [List.foldl_cons]
    obtain ⟨h1, h2⟩ := ih (tpStep cutoff s c)
    constructor
    · rw [h1, tpStep_count_all]
      simp only [List.length_cons]
      omega
    · rw [h2, tpStep_count_out]
      unfold tpStepOut
      by_cases hc : c.metric ≥ cutoff
      · rw [if_pos hc]
        simp [List.filter_cons, hc]
        omega
      · rw [if_neg hc]
        simp [List.filter_cons, hc]

/-- The four-conformer scenario of the specification: SMILES
`["A", "A", "B", "C"]`, metrics `[2.0, 0.5, 3.0, 0.5]`, structures
numbered in processing order. -/
def exampleConfs : List Conformer :=
  [⟨"A", 2, 0⟩, ⟨"A", 1/2, 1⟩, ⟨"B", 3, 2⟩, ⟨"C", 1/2, 3⟩]

/-- **C3**: at cutoff `1.0` the scenario yields `mols_all` with the three
keys `A`, `B`, `C` (the last-processed conformer, structure `1`, wins for
the duplicate key `A`), `count_all = 4`, `mols_out` with keys `A`
(retaining metric `2.0` and structure `0`) and `B`, and `count_out = 2`;
in general the counters increment once per conformer processed, not per
unique SMILES key. -/
theorem tailed_counts_per_conformer :
    (tpScan 1 exampleConfs).mols_all = [("A", 1), ("B", 2), ("C", 3)]
    ∧ (tpScan 1 exampleConfs).count_all = 4
    ∧ (tpScan 1 exampleConfs).mols_out = [("A", ((2 : ℚ), 0)), ("B", ((3 : ℚ), 2))]
    ∧ (tpScan 1 exampleConfs).count_out = 2
    ∧ (tpScan 1 exampleConfs).mols_all.length = 3
    ∧ (∀ (cutoff : ℚ) (confs : List Conformer),
        (tpScan cutoff confs).count_all = confs.length
        ∧ (tpScan cutoff confs).count_out
            = (confs.filter (fun c => decide (c.metric ≥ cutoff))).length) := by
  refine ⟨?_, ?_, ?_, ?_, ?_, fun cutoff confs => ?_⟩
  · norm_num [tpScan, exampleConfs, tpStep, tpStepOut, tpInit, odInsert]
    all_goals decide
  · norm_num [tpScan, exampleConfs, tpStep, tpStepOut, tpInit, odInsert]
  · norm_num [tpScan, exampleConfs, tpStep, tpStepOut, tpInit, odInsert]
    all_goals decide
  · norm_num [tpScan, exampleConfs, tpStep, tpStepOut, tpInit, odInsert]
  · norm_num [tpScan, exampleConfs, tpStep, tpStepOut, tpInit, odInsert]
    all_goals decide
  · have h := tp_count_aux cutoff confs tpInit
    simpa [tpScan, tpInit] using h

/-! ### The ratio filter of `main` (tailed_parameters.py lines 286-307)

`main` divides the per-parameter molecule counts by the unique-molecule
totals, removes the indices at which BOTH counts equal one
(`np.intersect1d` of the two `np.where(... == 1)` index arrays, removed
with `np.delete` from the two fraction arrays and with a list
comprehension from the parameter-ID list), then removes the indices at
which the outlier fraction is zero (`np.nonzero` used as a fancy index on
all three structures), and finally forms the elementwise ratio
`fraction_cnt_out / fraction_cnt_all` of the survivors. -/

/-- `np.where(arr == 1)[0]` starting at position `k`: the ascending list
of indices whose entry equals one. -/
def whereEqOneFrom (k : ℕ) : List ℕ → List ℕ
  | [] => []
  | c :: cs => if c = 1 then k :: whereEqOneFrom (k + 1) cs else whereEqOneFrom (k + 1) cs

/-- `np.where(arr == 1)[0]`. -/
def whereEqOne (cnt : List ℕ) : List ℕ := whereEqOneFrom 0 cnt

/-- `np.intersect1d` on two ascending index arrays. -/
def intersect1d (as' bs : List ℕ) : List ℕ := as'.filter (fun i => i ∈ bs)

/-- `np.delete(arr, bad)` / `[v for i, v in enumerate(arr) if i not in bad]`,
walking the list from position `k`: drop every entry whose position lies
in `bad`. -/
def npDeleteFrom (bad : List ℕ) (k : ℕ) : List α → List α
  | [] => []
  | x :: xs => if k ∈ bad then npDeleteFrom bad (k + 1) xs else x :: npDeleteFrom bad (k + 1) xs

/-- `np.delete(arr, bad)`. -/
def npDelete (xs : List α) (bad : List ℕ) : List α := npDeleteFrom bad 0 xs

/-- `np.nonzero(arr)[0]` starting at position `k`. -/
def nonzeroFrom (k : ℕ) : List ℚ → List ℕ
  | [] => []
  | x :: xs => if x ≠ 0 then k :: nonzeroFrom (k + 1) xs else nonzeroFrom (k + 1) xs

/-- `np.nonzero(arr)[0]`. -/
def npNonzero (xs : List ℚ) : List ℕ := nonzeroFrom 0 xs

/-- numpy fancy indexing `arr[inds]` and the list comprehension
`[xs[i] for i in inds]`. -/
def npSelect (xs : List α) (inds : List ℕ) : List α := inds.filterMap (fun i => xs.get? i)

/-- `nmols_cnt / uniq_n` on a numpy integer array: elementwise rational
division. -/
def fractions (cnt : List ℕ) (uniq : ℕ) : List ℚ :=
  cnt.map (fun (c : ℕ) => (c : ℚ) / (uniq : ℚ))

/-- Every intermediate array of the filtering section of `main`
(lines 286-307). -/
structure RatioStages where
  fracAll0 : List ℚ
  fracOut0 : List ℚ
  ones_both : List ℕ
  params1 : List String
  fracAll1 : List ℚ
  fracOut1 : List ℚ
  nonzero_inds : List ℕ
  params2 : List String
  fracAll2 : List ℚ
  fracOut2 : List ℚ
  fraction_ratio : List ℚ

/-- The filtering section of `main` (lines 286-307): fractions, the
single-support removal, the zero-outlier removal, and the final ratio. -/
def ratioFilter (full_params : List String) (cntAll cntOut : List ℕ)
    (uniqAll uniqOut : ℕ) : RatioStages :=
  let fa0 := fractions cntAll uniqAll
  let fo0 := fractions cntOut uniqOut
  let ones := intersect1d (whereEqOne cntAll) (whereEqOne cntOut)
  let fa1 := npDelete fa0 ones
  let fo1 := npDelete fo0 ones
  let p1 := npDelete full_params ones
  let nz := npNonzero fo1
  { fracAll0 := fa0, fracOut0 := fo0, ones_both := ones,
    params1 := p1, fracAll1 := fa1, fracOut1 := fo1,
    nonzero_inds := nz,
    params2 := npSelect p1 nz, fracAll2 := npSelect fa1 nz,
    fracOut2 := npSelect fo1 nz,
    fraction_ratio := ((npSelect fo1 nz).zip (npSelect fa1 nz)).map (fun p => p.1 / p.2) }

theorem npDeleteFrom_length_eq {α β : Type} (bad : List ℕ) :
    ∀ (xs : List α) (ys : List β) (k : ℕ), xs.length = ys.length →
      (npDeleteFrom bad k xs).length = (npDeleteFrom bad k ys).length := by
  intro xs
  induction xs with
  | nil =>
    intro ys k h
    cases ys
    · rfl
    · cases h
  | cons x xs ih =>
    intro ys k h
    cases ys with
    | nil => cases h
    | cons y ys =>
      simp only [List.length_cons, Nat.add_right_cancel_iff] at h
      unfold npDeleteFrom
      by_cases hk : k ∈ bad
      · rw [if_pos hk, if_pos hk]
        exact ih ys (k + 1) h
      · rw [if_neg hk, if_neg hk]
        simp only [List.length_cons, Nat.add_right_cancel_iff]
        exact ih ys (k + 1) h

theorem npSelect_length_eq {α β : Type} (xs : List α) (ys : List β)
    (h : xs.length = ys.length) :
    ∀ inds : List ℕ, (npSelect xs inds).length = (npSelect ys inds).length := by
  intro inds
  induction inds with
  | nil => rfl
  | cons i inds ih =>
    simp only [npSelect, List.filterMap_cons] at ih ⊢
    cases hx : xs.get? i with
    | none =>
      have hy : ys.get? i = none := by
        rw [List.get?_eq_none] at hx ⊢
        omega
      rw [hy]
      exact ih
    | some x =>
      have hi : i < ys.length := by
        by_contra hle
        rw [List.get?_eq_none.mpr (by omega)] at hx
        cases hx
      rw [List.get?_eq_get hi]
      simp only [List.length_cons]
      exact congrArg (· + 1) ih

theorem mem_whereEqOneFrom :
    ∀ (cs : List ℕ) (k i : ℕ),
      i ∈ whereEqOneFrom k cs ↔ ∃ j, j < cs.length ∧ i = k + j ∧ cs.getD j 0 = 1 := by
  intro cs
  induction cs with
  | nil => intro k i; simp [whereEqOneFrom]
  | cons c cs ih =>
    intro k i
    unfold whereEqOneFrom
    by_cases hc : c = 1
    · rw [if_pos hc]
      simp only [List.mem_cons, ih cs.length.succ.pred.succ]
      constructor
      · rintro (rfl | hm)
        · exact ⟨0, by simpa using hc⟩
        · obtain ⟨j, hj, rfl, hg⟩ := (ih (k + 1) i).mp hm
          exact ⟨j + 1, by simpa using hj, by omega, by simpa using hg⟩
      · rintro ⟨j, hj, rfl, hg⟩
        cases j with
        | zero => exact Or.inl (by omega)
        | succ j =>
          refine Or.inr ((ih (k + 1) (k + (j + 1))).mpr ⟨j, ?_, by omega, by simpa using hg⟩)
          simpa using hj
    · rw [if_neg hc]
      rw [ih (k + 1) i]
      constructor
      · rintro ⟨j, hj, rfl, hg⟩
        exact ⟨j + 1, by simpa using hj, by omega, by simpa using hg⟩
      · rintro ⟨j, hj, rfl, hg⟩
        cases j with
        | zero => exact absurd (by simpa using hg) hc
        | succ j =>
          exact ⟨j, by simpa using hj, by omega, by simpa using hg⟩

theorem mem_whereEqOne {cnt : List ℕ} {i : ℕ} :
    i ∈ whereEqOne cnt ↔ i < cnt.length ∧ cnt.getD i 0 = 1 := by
  rw [whereEqOne, mem_whereEqOneFrom]
  constructor
  · rintro ⟨j, hj, rfl, hg⟩
    exact ⟨by omega, by simpa using hg⟩
  · rintro ⟨hi, hg⟩
    exact ⟨i, hi, by omega, hg⟩

theorem mem_ones_iff {cA cO : List ℕ} {i : ℕ} :
    i ∈ intersect1d (whereEqOne cA) (whereEqOne cO)
      ↔ (i < cA.length ∧ cA.getD i 0 = 1 ∧ i < cO.length ∧ cO.getD i 0 = 1) := by
  simp only [intersect1d, List.mem_filter, decide_eq_true_eq, mem_whereEqOne]
  tauto

theorem nonzeroFrom_shift :
    ∀ (vs : List ℚ) (k : ℕ), nonzeroFrom (k + 1) vs = (nonzeroFrom k vs).map (· + 1) := by
  intro vs
  induction vs with
  | nil => intro k; rfl
  | cons v vs ih =>
    intro k
    unfold nonzeroFrom
    by_cases hv : v ≠ 0
    · rw [if_pos hv, if_pos hv, List.map_cons, ih (k + 1)]
    · rw [if_neg hv, if_neg hv, ih (k + 1)]

theorem npSelect_cons_shift {α : Type} (x : α) (xs : List α) (inds : List ℕ) :
    npSelect (x :: xs) (inds.map (· + 1)) = npSelect xs inds := by
  unfold npSelect
  rw [List.filterMap_map]
  rfl

theorem npSelect_nonzero_eq_filter {α : Type} :
    ∀ (xs : List α) (vs : List ℚ), xs.length = vs.length →
      npSelect xs (npNonzero vs)
        = ((xs.zip vs).filter (fun p => decide (p.2 ≠ 0))).map Prod.fst := by
  intro xs
  induction xs with
  | nil =>
    intro vs h
    cases vs with
    | nil => rfl
    | cons v vs => cases h
  | cons x xs ih =>
    intro vs h
    cases vs with
    | nil => cases h
    | cons v vs =>
      simp only [List.length_cons, Nat.add_right_cancel_iff] at h
      show npSelect (x :: xs) (nonzeroFrom 0 (v :: vs)) = _
      unfold nonzeroFrom
      by_cases hv : v ≠ 0
      · rw [if_pos hv, nonzeroFrom_shift]
        show npSelect (x :: xs) (0 :: (npNonzero vs).map (· + 1)) = _
        unfold npSelect
        rw [List.filterMap_cons]
        simp only [List.get?_cons_zero]
        rw [show List.filterMap (fun i => (x :: xs).get? i) ((npNonzero vs).map (· + 1))
              = npSelect (x :: xs) ((npNonzero vs).map (· + 1)) from rfl]
        rw [npSelect_cons_shift, ih vs h]
        simp [List.zip_cons_cons, List.filter_cons, hv]
      · rw [if_neg hv, nonzeroFrom_shift]
        rw [show nonzeroFrom 0 vs = npNonzero vs from rfl]
        rw [npSelect_cons_shift, ih vs h]
        simp only [ne_eq, Decidable.not_not] at hv
        simp [List.zip_cons_cons, List.filter_cons, hv]

theorem npDeleteFrom_zip_char {α : Type} :
    ∀ (xs : List α) (cA cO : List ℕ) (bad : List ℕ) (k : ℕ),
      xs.length = cA.length → xs.length = cO.length →
      (∀ j, (k + j ∈ bad)
          ↔ (j < cA.length ∧ cA.getD j 0 = 1 ∧ j < cO.length ∧ cO.getD j 0 = 1)) →
      npDeleteFrom bad k xs
        = ((xs.zip (cA.zip cO)).filter
            (fun t => decide (¬(t.2.1 = 1 ∧ t.2.2 = 1)))).map Prod.fst := by
  intro xs
  induction xs with
  | nil => intro cA cO bad k h1 h2 hbad; rfl
  | cons x xs ih =>
    intro cA cO bad k h1 h2 hbad
    cases cA with
    | nil => cases h1
    | cons a cA =>
      cases cO with
      | nil => cases h2
      | cons o cO =>
        simp only [List.length_cons, Nat.add_right_cancel_iff] at h1 h2
        have hk : k ∈ bad ↔ (a = 1 ∧ o = 1) := by
          have := hbad 0
          simpa using this
        have htail : ∀ j, ((k + 1) + j ∈ bad)
            ↔ (j < cA.length ∧ cA.getD j 0 = 1 ∧ j < cO.length ∧ cO.getD j 0 = 1) := by
          intro j
          have := hbad (j + 1)
          constructor
          · intro hm
            have h' := this.mp (by rw [show k + (j + 1) = k + 1 + j by omega]; exact hm)
            exact ⟨by simpa using h'.1, by simpa using h'.2.1,
                   by simpa using h'.2.2.1, by simpa using h'.2.2.2⟩
          · intro hm
            have h' := this.mpr ⟨by simpa using hm.1, by simpa using hm.2.1,
                                 by simpa using hm.2.2.1, by simpa using hm.2.2.2⟩
            rw [show k + (j + 1) = k + 1 + j by omega] at h'
            exact h'
        unfold npDeleteFrom
        by_cases hmem : k ∈ bad
        · rw [if_pos hmem]
          have hao := hk.mp hmem
          rw [ih cA cO bad (k + 1) h1 h2 htail]
          simp [List.zip_cons_cons, List.filter_cons, hao.1, hao.2]
        · rw [if_neg hmem]
          have hao : ¬(a = 1 ∧ o = 1) := fun h => hmem (hk.mpr h)
          rw [ih cA cO bad (k + 1) h1 h2 htail]
          rcases not_and_or.mp hao with h | h <;>
            simp [List.zip_cons_cons, List.filter_cons, h]

theorem stage2_zip_char {α : Type} :
    ∀ (xs : List α) (cA cO : List ℕ) (uO : ℕ) (bad : List ℕ) (k : ℕ),
      xs.length = cA.length → xs.length = cO.length → 0 < uO →
      (∀ j, (k + j ∈ bad)
          ↔ (j < cA.length ∧ cA.getD j 0 = 1 ∧ j < cO.length ∧ cO.getD j 0 = 1)) →
      npSelect (npDeleteFrom bad k xs) (npNonzero (npDeleteFrom bad k (fractions cO uO)))
        = ((xs.zip (cA.zip cO)).filter
            (fun t => decide (¬(t.2.1 = 1 ∧ t.2.2 = 1) ∧ t.2.2 ≠ 0))).map Prod.fst := by
  intro xs
  induction xs with
  | nil =>
    intro cA cO uO bad k h1 h2 hu hbad
    cases cO with
    | nil => rfl
    | cons o cO => cases h2
  | cons x xs ih =>
    intro cA cO uO bad k h1 h2 hu hbad
    cases cA with
    | nil => cases h1
    | cons a cA =>
      cases cO with
      | nil => cases h2
      | cons o cO =>
        simp only [List.length_cons, Nat.add_right_cancel_iff] at h1 h2
        have hk : k ∈ bad ↔ (a = 1 ∧ o = 1) := by simpa using hbad 0
        have htail : ∀ j, ((k + 1) + j ∈ bad)
            ↔ (j < cA.length ∧ cA.getD j 0 = 1 ∧ j < cO.length ∧ cO.getD j 0 = 1) := by
          intro j
          have h0 := hbad (j + 1)
          rw [show k + (j + 1) = k + 1 + j by omega] at h0
          simpa using h0
        have hfrac : fractions (o :: cO) uO = ((o : ℚ) / (uO : ℚ)) :: fractions cO uO := rfl
        rw [hfrac]
        unfold npDeleteFrom
        by_cases hmem : k ∈ bad
        · rw [if_pos hmem, if_pos hmem]
          have hao := hk.mp hmem
          rw [ih cA cO uO bad (k + 1) h1 h2 hu htail]
          simp [List.zip_cons_cons, List.filter_cons, hao.1, hao.2]
        · rw [if_neg hmem, if_neg hmem]
          have hao : ¬(a = 1 ∧ o = 1) := fun h => hmem (hk.mpr h)
          have hzero : ((o : ℚ) / (uO : ℚ) = 0) ↔ o = 0 := by
            rw [div_eq_zero_iff]
            constructor
            · rintro (h | h)
              · exact_mod_cast h
              · exact absurd h (by positivity)
            · intro h
              exact Or.inl (by exact_mod_cast h)
          show npSelect (x :: npDeleteFrom bad (k + 1) xs)
              (nonzeroFrom 0 (((o : ℚ) / (uO : ℚ)) :: npDeleteFrom bad (k + 1) (fractions cO uO))) = _
          unfold nonzeroFrom
          by_cases ho : o = 0
          · rw [if_neg (by simp [hzero, ho]), nonzeroFrom_shift]
            rw [show nonzeroFrom 0 (npDeleteFrom bad (k + 1) (fractions cO uO))
                  = npNonzero (npDeleteFrom bad (k + 1) (fractions cO uO)) from rfl]
            rw [npSelect_cons_shift, ih cA cO uO bad (k + 1) h1 h2 hu htail]
            simp [List.zip_cons_cons, List.filter_cons, ho]
          · rw [if_pos (by simp [hzero, ho]), nonzeroFrom_shift]
            rw [show nonzeroFrom 0 (npDeleteFrom bad (k + 1) (fractions cO uO))
                  = npNonzero (npDeleteFrom bad (k + 1) (fractions cO uO)) from rfl]
            unfold npSelect
            rw [List.filterMap_cons]
            simp only [List.get?_cons_zero]
            rw [show List.filterMap (fun i => (x :: npDeleteFrom bad (k + 1) xs).get? i)
                  ((npNonzero (npDeleteFrom bad (k + 1) (fractions cO uO))).map (· + 1))
                  = npSelect (x :: npDeleteFrom bad (k + 1) xs)
                      ((npNonzero (npDeleteFrom bad (k + 1) (fractions cO uO))).map (· + 1)) from rfl]
            rw [npSelect_cons_shift, ih cA cO uO bad (k + 1) h1 h2 hu htail]
            rcases not_and_or.mp hao with h | h <;>
              simp [List.zip_cons_cons, List.filter_cons, h, ho]

/-- **C2**: the single-support filter removes exactly the indices at which
the all-count and the out-count both equal one, from the parameter-ID
list and from both fraction arrays; it runs before the zero-outlier
filter, so the parameters surviving both filters are exactly those with
not-both-ones counts and nonzero outlier count, and the ratio is formed
only for these survivors.  In particular, for all-counts `[1, 1, 5]` and
out-counts `[1, 0, 1]`, the first parameter is removed by the
single-support filter and the second by the zero-outlier filter despite
its all-count of one. -/
theorem ratio_filter_exact_and_ordered (params : List String) (cntAll cntOut : List ℕ)
    (uniqAll uniqOut : ℕ)
    (hA : cntAll.length = params.length) (hO : cntOut.length = params.length)
    (hu : 0 < uniqOut) :
    (ratioFilter params cntAll cntOut uniqAll uniqOut).params1
      = ((params.zip (cntAll.zip cntOut)).filter
          (fun t => decide (¬(t.2.1 = 1 ∧ t.2.2 = 1)))).map Prod.fst
    ∧ (ratioFilter params cntAll cntOut uniqAll uniqOut).fracAll1
      = (((fractions cntAll uniqAll).zip (cntAll.zip cntOut)).filter
          (fun t => decide (¬(t.2.1 = 1 ∧ t.2.2 = 1)))).map Prod.fst
    ∧ (ratioFilter params cntAll cntOut uniqAll uniqOut).fracOut1
      = (((fractions cntOut uniqOut).zip (cntAll.zip cntOut)).filter
          (fun t => decide (¬(t.2.1 = 1 ∧ t.2.2 = 1)))).map Prod.fst
    ∧ (ratioFilter params cntAll cntOut uniqAll uniqOut).params2
      = ((params.zip (cntAll.zip cntOut)).filter
          (fun t => decide (¬(t.2.1 = 1 ∧ t.2.2 = 1) ∧ t.2.2 ≠ 0))).map Prod.fst
    ∧ (ratioFilter params cntAll cntOut uniqAll uniqOut).fraction_ratio.length
      = (ratioFilter params cntAll cntOut uniqAll uniqOut).params2.length
    ∧ (ratioFilter ["b1", "b2", "b3"] [1, 1, 5] [1, 0, 1] 5 2).params1 = ["b2", "b3"]
    ∧ (ratioFilter ["b1", "b2", "b3"] [1, 1, 5] [1, 0, 1] 5 2).params2 = ["b3"] := by
  have hb : ∀ j, (0 + j ∈ intersect1d (whereEqOne cntAll) (whereEqOne cntOut))
      ↔ (j < cntAll.length ∧ cntAll.getD j 0 = 1
          ∧ j < cntOut.length ∧ cntOut.getD j 0 = 1) := by
    intro j
    rw [Nat.zero_add, mem_ones_iff]
  have hfo1 : (npDelete (fractions cntOut uniqOut)
        (intersect1d (whereEqOne cntAll) (whereEqOne cntOut))).length
      = (npDelete params (intersect1d (whereEqOne cntAll) (whereEqOne cntOut))).length :=
    npDeleteFrom_length_eq _ _ _ 0 (by simp only [fractions, List.length_map, hO])
  have hfa1 : (npDelete (fractions cntAll uniqAll)
        (intersect1d (whereEqOne cntAll) (whereEqOne cntOut))).length
      = (npDelete params (intersect1d (whereEqOne cntAll) (whereEqOne cntOut))).length :=
    npDeleteFrom_length_eq _ _ _ 0 (by simp only [fractions, List.length_map, hA])
  refine ⟨?_, ?_, ?_, ?_, ?_, ?_, ?_⟩
  · show npDelete params (intersect1d (whereEqOne cntAll) (whereEqOne cntOut)) = _
    exact npDeleteFrom_zip_char params cntAll cntOut _ 0 hA.symm hO.symm hb
  · show npDelete (fractions cntAll uniqAll)
        (intersect1d (whereEqOne cntAll) (whereEqOne cntOut)) = _
    exact npDeleteFrom_zip_char _ cntAll cntOut _ 0
      (by simp only [fractions, List.length_map]) (by simp only [fractions, List.length_map, hA, hO]) hb
  · show npDelete (fractions cntOut uniqOut)
        (intersect1d (whereEqOne cntAll) (whereEqOne cntOut)) = _
    exact npDeleteFrom_zip_char _ cntAll cntOut _ 0
      (by simp only [fractions, List.length_map, hA, hO]) (by simp only [fractions, List.length_map]) hb
  · show npSelect (npDelete params (intersect1d (whereEqOne cntAll) (whereEqOne cntOut)))
        (npNonzero (npDelete (fractions cntOut uniqOut)
          (intersect1d (whereEqOne cntAll) (whereEqOne cntOut)))) = _
    exact stage2_zip_char params cntAll cntOut uniqOut _ 0 hA.symm hO.symm hu hb
  · show (((npSelect (npDelete (fractions cntOut uniqOut) _) _).zip
        (npSelect (npDelete (fractions cntAll uniqAll) _) _)).map (fun p => p.1 / p.2)).length
        = (npSelect (npDelete params _) _).length
    rw [List.length_map, List.length_zip]
    rw [npSelect_length_eq _ _ hfo1 _, npSelect_length_eq _ _ hfa1 _]
    exact Nat.min_self _
  · norm_num [ratioFilter, fractions, whereEqOne, whereEqOneFrom, intersect1d,
      npDelete, npDeleteFrom, npNonzero, nonzeroFrom, npSelect]
  · norm_num [ratioFilter, fractions, whereEqOne, whereEqOneFrom, intersect1d,
      npDelete, npDeleteFrom, npNonzero, nonzeroFrom, npSelect]
    all_goals decide

/-- Witness for **C2** at the concrete input of the specification. -/
theorem ratio_filter_exact_and_ordered_witness :
    (([1, 1, 5] : List ℕ).length = (["b1", "b2", "b3"] : List String).length)
    ∧ (([1, 0, 1] : List ℕ).length = (["b1", "b2", "b3"] : List String).length)
    ∧ ((0 : ℕ) < 2)
    ∧ (ratioFilter ["b1", "b2", "b3"] [1, 1, 5] [1, 0, 1] 5 2).params2 = ["b3"] :=
  ⟨rfl, rfl, by decide,
    (ratio_filter_exact_and_ordered ["b1", "b2", "b3"] [1, 1, 5] [1, 0, 1] 5 2
      rfl rfl (by decide)).2.2.2.2.2.2⟩

/-- **C5**: after the single-support removal and again after the
zero-outlier removal, the parameter-ID list and the two fraction arrays
have identical lengths — each filtering step removes the same index set
from all three aligned structures. -/
theorem ratio_filter_aligned_lengths (params : List String) (cntAll cntOut : List ℕ)
    (uniqAll uniqOut : ℕ)
    (hA : cntAll.length = params.length) (hO : cntOut.length = params.length) :
    ((ratioFilter params cntAll cntOut uniqAll uniqOut).params1.length
        = (ratioFilter params cntAll cntOut uniqAll uniqOut).fracAll1.length
      ∧ (ratioFilter params cntAll cntOut uniqAll uniqOut).params1.length
        = (ratioFilter params cntAll cntOut uniqAll uniqOut).fracOut1.length)
    ∧ ((ratioFilter params cntAll cntOut uniqAll uniqOut).params2.length
        = (ratioFilter params cntAll cntOut uniqAll uniqOut).fracAll2.length
      ∧ (ratioFilter params cntAll cntOut uniqAll uniqOut).params2.length
        = (ratioFilter params cntAll cntOut uniqAll uniqOut).fracOut2.length) := by
  have e1 : (npDelete params (intersect1d (whereEqOne cntAll) (whereEqOne cntOut))).length
      = (npDelete (fractions cntAll uniqAll)
          (intersect1d (whereEqOne cntAll) (whereEqOne cntOut))).length :=
    npDeleteFrom_length_eq _ _ _ 0 (by simp only [fractions, List.length_map, hA])
  have e2 : (npDelete params (intersect1d (whereEqOne cntAll) (whereEqOne cntOut))).length
      = (npDelete (fractions cntOut uniqOut)
          (intersect1d (whereEqOne cntAll) (whereEqOne cntOut))).length :=
    npDeleteFrom_length_eq _ _ _ 0 (by simp only [fractions, List.length_map, hO])
  exact ⟨⟨e1, e2⟩,
    ⟨npSelect_length_eq _ _ e1 _, npSelect_length_eq _ _ e2 _⟩⟩

/-- Witness for **C5** at a concrete input. -/
theorem ratio_filter_aligned_lengths_witness :
    (([1, 1, 5] : List ℕ).length = (["b1", "b2", "b3"] : List String).length)
    ∧ (([1, 0, 1] : List ℕ).length = (["b1", "b2", "b3"] : List String).length)
    ∧ (ratioFilter ["b1", "b2", "b3"] [1, 1, 5] [1, 0, 1] 5 2).params2.length
        = (ratioFilter ["b1", "b2", "b3"] [1, 1, 5] [1, 0, 1] 5 2).fracOut2.length :=
  ⟨rfl, rfl,
    (ratio_filter_aligned_lengths ["b1", "b2", "b3"] [1, 1, 5] [1, 0, 1] 5 2 rfl rfl).2.2⟩

/-! ### Deduplication in `get_parameters` (tailed_parameters.py lines 105-119)

`get_parameters` converts every molecule of the input dictionary, collects
the canonical isomeric SMILES `iso_smiles` of the conversions, builds the
reverse-lookup `smi_dict = dict(zip(iso_smiles, smi_list))`, collects
`idx_of_duplicates` — the positions whose canonical SMILES already occurs
earlier — and deletes those positions from the molecule list, iterating
the sorted index list in reverse order. -/

/-- The comprehension of line 111,
`[idx for idx, item in enumerate(iso_smiles) if item in iso_smiles[:idx]]`,
walking the suffix `ss` from position `k` with the already-seen prefix
`seen`. -/
def idxDupAux (k : ℕ) (seen : List String) : List String → List ℕ
  | [] => []
  | s :: ss =>
    if s ∈ seen then k :: idxDupAux (k + 1) (seen ++ [s]) ss
    else idxDupAux (k + 1) (seen ++ [s]) ss

/-- `idx_of_duplicates` (line 111). -/
def idx_of_duplicates (iso : List String) : List ℕ := idxDupAux 0 [] iso

/-- `sorted(inds, reverse=True)`: a stable descending sort. -/
def sortDescNat (l : List ℕ) : List ℕ := l.mergeSort (fun a b => decide (b ≤ a))

/-- Lines 112-113: `for index in sorted(idx_of_duplicates, reverse=True):
del off_mols[index]`. -/
def dedup_mols {α : Type} (off_mols : List α) (iso : List String) : List α :=
  (sortDescNat (idx_of_duplicates iso)).foldl (fun ms i => ms.eraseIdx i) off_mols

/-- Written from the specification sentence, for comparison with
`dedup_mols`: keep exactly the first occurrence of each distinct
canonical SMILES, in the original order, dropping every later
occurrence. -/
def keepFirstsAux {α : Type} (seen : List String) : List (α × String) → List α
  | [] => []
  | (m, s) :: rest =>
    if s ∈ seen then keepFirstsAux (seen ++ [s]) rest
    else m :: keepFirstsAux (seen ++ [s]) rest

/-- The specification-side deduplication, on molecules paired with their
canonical SMILES. -/
def keepFirsts {α : Type} (ms : List α) (iso : List String) : List α :=
  keepFirstsAux [] (ms.zip iso)

theorem idxDupAux_ge :
    ∀ (ss : List String) (seen : List String) (k i : ℕ),
      i ∈ idxDupAux k seen ss → k ≤ i := by
  intro ss
  induction ss with
  | nil => intro seen k i h; cases h
  | cons s ss ih =>
    intro seen k i h
    unfold idxDupAux at h
    by_cases hs : s ∈ seen
    · rw [if_pos hs] at h
      rcases List.mem_cons.mp h with h | h
      · omega
      · have := ih (seen ++ [s]) (k + 1) i h
        omega
    · rw [if_neg hs] at h
      have := ih (seen ++ [s]) (k + 1) i h
      omega

theorem idxDupAux_pairwise :
    ∀ (ss : List String) (seen : List String) (k : ℕ),
      (idxDupAux k seen ss).Pairwise (· < ·) := by
  intro ss
  induction ss with
  | nil => intro seen k; exact List.Pairwise.nil
  | cons s ss ih =>
    intro seen k
    unfold idxDupAux
    by_cases hs : s ∈ seen
    · rw [if_pos hs]
      refine List.Pairwise.cons ?_ (ih (seen ++ [s]) (k + 1))
      intro i hi
      have := idxDupAux_ge ss (seen ++ [s]) (k + 1) i hi
      omega
    · rw [if_neg hs]
      exact ih (seen ++ [s]) (k + 1)

theorem sortDescNat_eq_reverse (l : List ℕ) (h : l.Pairwise (· < ·)) :
    sortDescNat l = l.reverse := by
  haveI : IsAntisymm ℕ (fun a b : ℕ => b ≤ a) := ⟨fun a b h1 h2 => le_antisymm h2 h1⟩
  have hperm : sortDescNat l ~ l.reverse :=
    (List.mergeSort_perm l _).trans (List.reverse_perm l).symm
  have hs1 : (sortDescNat l).Pairwise (fun a b : ℕ => b ≤ a) := by
    have hp := @List.sorted_mergeSort ℕ (fun a b : ℕ => decide (b ≤ a))
      (fun a b c h1 h2 => by
        simp only [decide_eq_true_eq] at h1 h2 ⊢
        omega)
      (fun a b => by
        simp only [Bool.or_eq_true, decide_eq_true_eq]
        omega)
      l
    exact hp.imp (fun hab => by simpa using hab)
  have hs2 : l.reverse.Pairwise (fun a b : ℕ => b ≤ a) := by
    rw [List.pairwise_reverse]
    exact h.imp (fun hab => le_of_lt hab)
  exact List.eq_of_perm_of_sorted hperm hs1 hs2

theorem npDeleteFrom_of_lt {α : Type} :
    ∀ (xs : List α) (bad : List ℕ) (k : ℕ),
      (∀ e ∈ bad, e < k) → npDeleteFrom bad k xs = xs := by
  intro xs
  induction xs with
  | nil => intro bad k h; rfl
  | cons x xs ih =>
    intro bad k h
    unfold npDeleteFrom
    rw [if_neg (fun hm => absurd (h k hm) (by omega))]
    rw [ih bad (k + 1) (fun e he => by have := h e he; omega)]

theorem npDeleteFrom_congr_ge {α : Type} :
    ∀ (xs : List α) (bad bad' : List ℕ) (k : ℕ),
      (∀ i, k ≤ i → (i ∈ bad ↔ i ∈ bad')) →
      npDeleteFrom bad k xs = npDeleteFrom bad' k xs := by
  intro xs
  induction xs with
  | nil => intro bad bad' k h; rfl
  | cons x xs ih =>
    intro bad bad' k h
    unfold npDeleteFrom
    have hk := h k (le_refl k)
    have htail := ih bad bad' (k + 1) (fun i hi => h i (by omega))
    by_cases hm : k ∈ bad
    · rw [if_pos hm, if_pos (hk.mp hm), htail]
    · rw [if_neg hm, if_neg (fun hm' => hm (hk.mpr hm')), htail]

theorem npDeleteFrom_eraseIdx {α : Type} :
    ∀ (xs : List α) (k d : ℕ) (bad : List ℕ),
      (∀ e ∈ bad, e < d) → k ≤ d →
      npDeleteFrom bad k (xs.eraseIdx (d - k)) = npDeleteFrom (d :: bad) k xs := by
  intro xs
  induction xs with
  | nil => intro k d bad hbad hkd; rfl
  | cons x xs ih =>
    intro k d bad hbad hkd
    by_cases hk : k = d
    · subst hk
      rw [show k - k = 0 by omega]
      show npDeleteFrom bad k xs = _
      rw [npDeleteFrom_of_lt xs bad k (fun e he => hbad e he)]
      unfold npDeleteFrom
      rw [if_pos (List.mem_cons_self k bad)]
      rw [npDeleteFrom_of_lt xs (k :: bad) (k + 1) ?side]
      case side =>
        intro e he
        rcases List.mem_cons.mp he with h | h
        · omega
        · have := hbad e h
          omega
    · have hlt : k < d := by omega
      rw [show d - k = (d - (k + 1)) + 1 by omega]
      show npDeleteFrom bad k (x :: xs.eraseIdx (d - (k + 1))) = _
      unfold npDeleteFrom
      have hkd' : (k ∈ d :: bad) ↔ k ∈ bad := by
        constructor
        · intro hm
          rcases List.mem_cons.mp hm with h | h
          · omega
          · exact h
        · exact fun hm => List.mem_cons_of_mem _ hm
      rw [ih (k + 1) d bad hbad (by omega)]
      by_cases hm : k ∈ bad
      · rw [if_pos hm, if_pos (hkd'.mpr hm)]
      · rw [if_neg hm, if_neg (fun hm' => hm (hkd'.mp hm'))]

theorem foldl_eraseIdx_eq_npDelete {α : Type} :
    ∀ (ds : List ℕ) (xs : List α), ds.Pairwise (· > ·) →
      ds.foldl (fun ms i => ms.eraseIdx i) xs = npDelete xs ds := by
  intro ds
  induction ds with
  | nil =>
    intro xs _
    show xs = npDeleteFrom [] 0 xs
    rw [npDeleteFrom_of_lt xs [] 0 (fun e he => by cases he)]
  | cons d ds ih =>
    intro xs hp
    have hd : ∀ e ∈ ds, e < d := fun e he => List.rel_of_pairwise_cons hp he
    rw [List.foldl_cons, ih (xs.eraseIdx d) hp.tail]
    show npDeleteFrom ds 0 (xs.eraseIdx (d - 0)) = npDeleteFrom (d :: ds) 0 xs
    exact npDeleteFrom_eraseIdx xs 0 d ds hd (by omega)

theorem npDeleteFrom_idxDup_eq_keepFirsts {α : Type} :
    ∀ (ms : List α) (ss : List String) (seen : List String) (k : ℕ),
      ms.length = ss.length →
      npDeleteFrom (idxDupAux k seen ss) k ms = keepFirstsAux seen (ms.zip ss) := by
  intro ms
  induction ms with
  | nil =>
    intro ss seen k h
    rfl
  | cons m ms ih =>
    intro ss seen k h
    cases ss with
    | nil => cases h
    | cons s ss =>
      simp only [List.length_cons, Nat.add_right_cancel_iff] at h
      show npDeleteFrom (idxDupAux k seen (s :: ss)) k (m :: ms)
          = keepFirstsAux seen ((m, s) :: ms.zip ss)
      unfold idxDupAux keepFirstsAux
      by_cases hs : s ∈ seen
      · rw [if_pos hs, if_pos hs]
        unfold npDeleteFrom
        rw [if_pos (List.mem_cons_self k _)]
        have hcongr : npDeleteFrom (k :: idxDupAux (k + 1) (seen ++ [s]) ss) (k + 1) ms
            = npDeleteFrom (idxDupAux (k + 1) (seen ++ [s]) ss) (k + 1) ms := by
          apply npDeleteFrom_congr_ge
          intro i hi
          constructor
          · intro hm
            rcases List.mem_cons.mp hm with h1 | h1
            · omega
            · exact h1
          · exact fun hm => List.mem_cons_of_mem _ hm
        rw [hcongr, ih ss (seen ++ [s]) (k + 1) h]
      · rw [if_neg hs, if_neg hs]
        unfold npDeleteFrom
        rw [if_neg (fun hm => by
          have := idxDupAux_ge ss (seen ++ [s]) (k + 1) k hm
          omega)]
        rw [ih ss (seen ++ [s]) (k + 1) h]

theorem keepFirstsAux_sublist {α : Type} :
    ∀ (pairs : List (α × String)) (seen : List String),
      keepFirstsAux seen pairs <+ pairs.map Prod.fst := by
  intro pairs
  induction pairs with
  | nil => intro seen; exact List.Sublist.refl _
  | cons p rest ih =>
    intro seen
    obtain ⟨m, s⟩ := p
    unfold keepFirstsAux
    by_cases hs : s ∈ seen
    · rw [if_pos hs]
      exact (ih (seen ++ [s])).cons _
    · rw [if_neg hs]
      exact (ih (seen ++ [s])).cons₂ _

unseal List.merge List.mergeSort in
/-- **C6**: for every aligned molecule list and canonical-SMILES list,
deleting `idx_of_duplicates` from highest to lowest retains exactly the
first occurrence of each distinct canonical SMILES and removes every
later occurrence; the retained molecules keep their original relative
order, and the deletion order is strictly descending so no retained
index is shifted. -/
theorem get_parameters_dedup_keeps_first {α : Type} (ms : List α) (iso : List String)
    (h : ms.length = iso.length) :
    dedup_mols ms iso = keepFirsts ms iso
    ∧ keepFirsts ms iso <+ ms
    ∧ (sortDescNat (idx_of_duplicates iso)).Pairwise (· > ·)
    ∧ dedup_mols [(10 : ℕ), 20, 30] ["x", "x", "y"] = [10, 30] := by
  have hpw : (idx_of_duplicates iso).Pairwise (· < ·) := idxDupAux_pairwise iso [] 0
  have hrev := sortDescNat_eq_reverse _ hpw
  have hdesc : (sortDescNat (idx_of_duplicates iso)).Pairwise (· > ·) := by
    rw [hrev, List.pairwise_reverse]
    exact hpw
  refine ⟨?_, ?_, hdesc, by decide⟩
  · show (sortDescNat (idx_of_duplicates iso)).foldl (fun ms i => ms.eraseIdx i) ms = _
    rw [foldl_eraseIdx_eq_npDelete _ ms hdesc, hrev]
    show npDeleteFrom (idx_of_duplicates iso).reverse 0 ms = _
    rw [npDeleteFrom_congr_ge ms (idx_of_duplicates iso).reverse (idx_of_duplicates iso) 0
      (fun i _ => List.mem_reverse)]
    exact npDeleteFrom_idxDup_eq_keepFirsts ms iso [] 0 h
  · have hsub := keepFirstsAux_sublist (ms.zip iso) []
    rwa [List.map_fst_zip ms iso (by omega)] at hsub

/-- Witness for **C6** at a concrete aligned input. -/
theorem get_parameters_dedup_keeps_first_witness :
    (([(10 : ℕ), 20, 30]).length = (["x", "x", "y"] : List String).length)
    ∧ dedup_mols [(10 : ℕ), 20, 30] ["x", "x", "y"]
        = keepFirsts [(10 : ℕ), 20, 30] ["x", "x", "y"] :=
  ⟨rfl, (get_parameters_dedup_keeps_first [(10 : ℕ), 20, 30] ["x", "x", "y"] rfl).1⟩

/-- `smi_dict = dict(zip(iso_smiles, smi_list))` (line 108): the
reverse-lookup from canonical isomeric SMILES to the original dictionary
key, built with Python dictionary insertion (last write wins for a
repeated key). -/
def smi_dict_of (iso keys : List String) : List (String × String) :=
  (iso.zip keys).foldl (fun d p => odInsert d p.1 p.2) []

/-- Python dictionary lookup `d.get(s)`. -/
def dictLookup (d : List (String × String)) (s : String) : Option String :=
  (d.find? (fun p => p.1 == s)).map Prod.snd

theorem dictLookup_cons (k' v' : String) (rest : List (String × String)) (s : String) :
    dictLookup ((k', v') :: rest) s = if k' = s then some v' else dictLookup rest s := by
  unfold dictLookup
  by_cases hks : k' = s
  · rw [if_pos hks, List.find?_cons_of_pos _ (by simpa using hks)]
    rfl
  · rw [if_neg hks, List.find?_cons_of_neg _ (by simpa using hks)]

theorem dictLookup_odInsert (d : List (String × String)) (a b s : String) :
    dictLookup (odInsert d a b) s = if s = a then some b else dictLookup d s := by
  induction d with
  | nil =>
    show dictLookup [(a, b)] s = _
    rw [dictLookup_cons]
    by_cases hs : s = a
    · rw [if_pos (id hs.symm), if_pos hs]
    · rw [if_neg (fun h => hs h.symm), if_neg hs]
  | cons p rest ih =>
    obtain ⟨k', v'⟩ := p
    rw [odInsert]
    by_cases hk : k' = a
    · rw [if_pos hk]
      subst hk
      rw [dictLookup_cons]
      by_cases hs : s = k'
      · rw [if_pos (id hs.symm), if_pos hs]
      · rw [if_neg (fun h => hs h.symm), if_neg hs, dictLookup_cons,
          if_neg (fun h => hs h.symm)]
    · rw [if_neg hk, dictLookup_cons]
      by_cases hks : k' = s
      · rw [if_pos hks, if_neg (fun h : s = a => hk (hks.trans h)), dictLookup_cons,
          if_pos hks]
      · rw [if_neg hks, ih, dictLookup_cons, if_neg hks]

theorem dictLookup_foldl_odInsert :
    ∀ (ps : List (String × String)) (d : List (String × String)) (s : String),
      dictLookup (ps.foldl (fun d p => odInsert d p.1 p.2) d) s
        = ((ps.reverse.find? (fun p => p.1 == s)).map Prod.snd).or (dictLookup d s) := by
  intro ps
  induction ps with
  | nil =>
    intro d s
    simp
  | cons p ps ih =>
    intro d s
    obtain ⟨a, b⟩ := p
    rw [List.foldl_cons, ih (odInsert d a b) s, dictLookup_odInsert]
    rw [List.reverse_cons, List.find?_append, Option.map_or', Option.or_assoc]
    congr 1
    by_cases hs : a = s
    · rw [List.find?_cons_of_pos _ (by simpa using hs), if_pos hs.symm]
      rfl
    · rw [List.find?_cons_of_neg _ (by simpa using hs), if_neg (fun h => hs h.symm)]
      rfl

theorem find?_reverse_last {α : Type} {p : α → Bool} {l : List α} {i : ℕ} {a : α}
    (hi : l[i]? = some a) (hp : p a = true)
    (hafter : ∀ (j : ℕ) (b : α), i < j → l[j]? = some b → p b = false) :
    l.reverse.find? p = some a := by
  obtain ⟨hilen, hget⟩ := List.getElem?_eq_some.mp hi
  have hsplit : l.reverse = (l.drop (i + 1)).reverse ++ (l.take (i + 1)).reverse := by
    rw [← List.reverse_append, List.take_append_drop]
  rw [hsplit, List.find?_append]
  have hdrop : (l.drop (i + 1)).reverse.find? p = none := by
    rw [List.find?_eq_none]
    intro x hx
    rw [List.mem_reverse] at hx
    obtain ⟨j, hj, hx'⟩ := List.mem_iff_getElem.mp hx
    have hq : l[(i + 1) + j]? = some x := by
      rw [← List.getElem?_drop, List.getElem?_eq_getElem hj, hx']
    have := hafter ((i + 1) + j) x (by omega) hq
    simp [this]
  rw [hdrop, Option.none_or]
  have htake : l.take (i + 1) = l.take i ++ [a] := by
    rw [List.take_succ, hi]
    rfl
  rw [htake, List.reverse_append]
  show List.find? p (a :: (l.take i).reverse) = some a
  rw [List.find?_cons_of_pos _ hp]

theorem mem_idxDupAux :
    ∀ (ss seen : List String) (k i : ℕ),
      i ∈ idxDupAux k seen ss
        ↔ ∃ j, j < ss.length ∧ i = k + j ∧ (ss.getD j "") ∈ seen ++ ss.take j := by
  intro ss
  induction ss with
  | nil => intro seen k i; simp [idxDupAux]
  | cons s ss ih =>
    intro seen k i
    unfold idxDupAux
    have hshift : ∀ j, (seen ++ [s]) ++ ss.take j = seen ++ (s :: ss).take (j + 1) := by
      intro j
      rw [List.take_succ_cons, List.append_assoc]
      rfl
    by_cases hs : s ∈ seen
    · rw [if_pos hs]
      simp only [List.mem_cons]
      constructor
      · rintro (rfl | hm)
        · exact ⟨0, by simp, by omega, by simpa using hs⟩
        · obtain ⟨j, hj, rfl, hg⟩ := (ih (seen ++ [s]) (k + 1) i).mp hm
          rw [hshift j] at hg
          exact ⟨j + 1, by simpa using hj, by omega, by simpa using hg⟩
      · rintro ⟨j, hj, rfl, hg⟩
        cases j with
        | zero => exact Or.inl (by omega)
        | succ j =>
          refine Or.inr ((ih (seen ++ [s]) (k + 1) (k + (j + 1))).mpr
            ⟨j, by simpa using hj, by omega, ?_⟩)
          rw [hshift j]
          simpa using hg
    · rw [if_neg hs]
      rw [ih (seen ++ [s]) (k + 1) i]
      constructor
      · rintro ⟨j, hj, rfl, hg⟩
        rw [hshift j] at hg
        exact ⟨j + 1, by simpa using hj, by omega, by simpa using hg⟩
      · rintro ⟨j, hj, rfl, hg⟩
        cases j with
        | zero =>
          exact absurd (by simpa using hg) hs
        | succ j =>
          refine ⟨j, by simpa using hj, by omega, ?_⟩
          rw [hshift j]
          simpa using hg

theorem mem_idx_of_duplicates {iso : List String} {i : ℕ} :
    i ∈ idx_of_duplicates iso ↔ i < iso.length ∧ (iso.getD i "") ∈ iso.take i := by
  rw [idx_of_duplicates, mem_idxDupAux]
  constructor
  · rintro ⟨j, hj, rfl, hg⟩
    exact ⟨by omega, by simpa using hg⟩
  · rintro ⟨hi, hg⟩
    exact ⟨i, hi, by omega, by simpa using hg⟩

/-- **C10**: when two molecules of the input mapping share the same
canonical isomeric SMILES `s` — first occurrence at position `i₁`, last at
position `i₂` — the reverse-lookup `smi_dict` built by
`dict(zip(iso_smiles, smi_list))` maps `s` to the original key of the LAST
such molecule (dictionary construction is last-write-wins), while the
deduplication of `get_parameters` deletes position `i₂` and retains
position `i₁`, the FIRST occurrence. -/
theorem smi_dict_last_wins (iso keys : List String) (i₁ i₂ : ℕ) (s v₂ : String)
    (h12 : i₁ < i₂)
    (e1 : iso[i₁]? = some s)
    (e2 : iso[i₂]? = some s)
    (ev2 : keys[i₂]? = some v₂)
    (hfirst : ∀ j, j < i₁ → iso[j]? ≠ some s)
    (hlast : ∀ j, i₂ < j → iso[j]? ≠ some s) :
    dictLookup (smi_dict_of iso keys) s = some v₂
    ∧ i₁ ∉ idx_of_duplicates iso
    ∧ i₂ ∈ idx_of_duplicates iso := by
  refine ⟨?_, ?_, ?_⟩
  · show dictLookup ((iso.zip keys).foldl (fun d p => odInsert d p.1 p.2) []) s = _
    rw [dictLookup_foldl_odInsert]
    have hz : (iso.zip keys)[i₂]? = some (s, v₂) :=
      List.getElem?_zip_eq_some.mpr ⟨e2, ev2⟩
    rw [find?_reverse_last hz (by simp) ?after]
    case after =>
      intro j b hij hj
      obtain ⟨hb1, _⟩ := List.getElem?_zip_eq_some.mp hj
      have hbs : b.1 ≠ s := fun h => hlast j hij (h ▸ hb1)
      simpa using hbs
    rfl
  · rw [mem_idx_of_duplicates]
    rintro ⟨hlen1, hmem⟩
    have hgd : iso.getD i₁ "" = s := by simp [e1]
    rw [hgd] at hmem
    obtain ⟨j, hj, hx⟩ := List.mem_iff_getElem.mp hmem
    have hjlt : j < i₁ ∧ j < iso.length := by
      rw [List.length_take] at hj
      omega
    simp only [List.getElem_take] at hx
    exact hfirst j hjlt.1 (by rw [List.getElem?_eq_getElem hjlt.2, hx])
  · rw [mem_idx_of_duplicates]
    have hi2 : i₂ < iso.length := (List.getElem?_eq_some.mp e2).1
    have hi1 : i₁ < iso.length := by omega
    refine ⟨hi2, ?_⟩
    have hgd : iso.getD i₂ "" = s := by simp [e2]
    rw [hgd, List.mem_iff_getElem]
    refine ⟨i₁, by rw [List.length_take]; omega, ?_⟩
    obtain ⟨hb, hv⟩ := List.getElem?_eq_some.mp e1
    simpa using hv

/-- Witness for **C10** at a concrete duplicated input. -/
theorem smi_dict_last_wins_witness :
    ((0 : ℕ) < 1)
    ∧ ((["X", "X"] : List String)[(0 : ℕ)]? = some "X")
    ∧ ((["X", "X"] : List String)[(1 : ℕ)]? = some "X")
    ∧ ((["k1", "k2"] : List String)[(1 : ℕ)]? = some "k2")
    ∧ dictLookup (smi_dict_of ["X", "X"] ["k1", "k2"]) "X" = some "k2"
    ∧ (0 : ℕ) ∉ idx_of_duplicates ["X", "X"]
    ∧ (1 : ℕ) ∈ idx_of_duplicates ["X", "X"] := by
  have h := smi_dict_last_wins ["X", "X"] ["k1", "k2"] 0 1 "X" "k2" (by decide) rfl rfl rfl
    (by simp)
    (by
      intro j hj
      rw [List.getElem?_eq_none (by simp; omega)]
      simp)
  exact ⟨by decide, rfl, rfl, rfl, h.1, h.2.1, h.2.2⟩

/-! ### Molecule conversion in `get_parameters` (lines 96-103)

The conversion loop creates an openforcefield molecule from each OEMol.
Line 102 reads
`off_mol = Molecule.from_openeye(mymol, allow_undefined_stereo=True)` —
the tolerance flag is hard-coded; `get_parameters(mols_dict, ffxml)` has
no parameter controlling it. -/

/-- An input molecule for the conversion loop: whether its
stereochemistry is unresolvable, plus an opaque identity. -/
structure OEMolRec where
  undefinedStereo : Bool
  mid : ℕ
deriving DecidableEq

/-- A converted openforcefield molecule. -/
structure OffMol where
  mid : ℕ
deriving DecidableEq

/-- The external converter `Molecule.from_openeye`, modelled from its
documented behaviour (specification section 4.2): it raises a
stereochemistry error exactly when the molecule has unresolvable
stereochemistry and undefined stereo is not tolerated. -/
def from_openeye (mol : OEMolRec) (allow_undefined_stereo : Bool) : Except String OffMol :=
  if mol.undefinedStereo && !allow_undefined_stereo then Except.error "stereochemistry"
  else Except.ok ⟨mol.mid⟩

/-- The conversion loop of `get_parameters` (lines 96-103): every
molecule is converted with `allow_undefined_stereo=True`, hard-coded at
line 102; a raised conversion error would propagate out of the loop. -/
def get_parameters_convert (mols : List OEMolRec) : Except String (List OffMol) :=
  mols.foldl
    (fun acc m => acc.bind (fun l => (from_openeye m true).map (fun o => l ++ [o])))
    (Except.ok [])

theorem get_parameters_convert_go :
    ∀ (mols : List OEMolRec) (acc : List OffMol),
      mols.foldl
        (fun acc m => acc.bind (fun l => (from_openeye m true).map (fun o => l ++ [o])))
        (Except.ok acc)
        = Except.ok (acc ++ mols.map (fun m => OffMol.mk m.mid)) := by
  intro mols
  induction mols with
  | nil => intro acc; simp
  | cons m mols ih =>
    intro acc
    have hconv : from_openeye m true = Except.ok (OffMol.mk m.mid) := by
      unfold from_openeye
      simp
    rw [List.foldl_cons]
    show List.foldl _
        ((Except.ok acc).bind (fun l => (from_openeye m true).map (fun o => l ++ [o]))) mols = _
    rw [hconv]
    show List.foldl _ (Except.ok (acc ++ [OffMol.mk m.mid])) mols = _
    rw [ih]
    simp

/-- Counterexample to **C7** as stated: a molecule with unresolvable
stereochemistry does not make the conversion of `get_parameters` fail —
yet no flag of `get_parameters` was passed to tolerate it (the function
has no such parameter; the tolerance is hard-coded at line 102). -/
theorem get_parameters_stereo_counterexample :
    (OEMolRec.mk true 0).undefinedStereo = true
    ∧ get_parameters_convert [OEMolRec.mk true 0] = Except.ok [OffMol.mk 0] :=
  ⟨rfl, rfl⟩

/-- **C7** (amended): the stereochemistry tolerance is NOT
caller-controlled: `get_parameters` hard-codes `allow_undefined_stereo=True`
in its conversion call, so the conversion succeeds for every molecule
list, including molecules with unresolvable stereochemistry; only the
hard-coded flag prevents the failure, as conversion with the flag off
errors on such a molecule. -/
theorem get_parameters_stereo_always_tolerated :
    (∀ mols : List OEMolRec,
        get_parameters_convert mols = Except.ok (mols.map (fun m => OffMol.mk m.mid)))
    ∧ from_openeye (OEMolRec.mk true 0) false = Except.error "stereochemistry" :=
  ⟨fun mols => by simpa using get_parameters_convert_go mols [], rfl⟩

/-! ### The analyzer argument parser (lines 323-364)

`--rmsd` and `--tfd` are installed as two independent `store_true`
arguments (lines 342-346); the parser has no mutually exclusive group, so
an invocation may set both.  After parsing, `metric_type` is assigned by
checking `args.rmsd` first, then `args.tfd` (lines 354-359); when neither
flag is set, the branch is `pass` and `metric_type` stays undefined. -/

/-- The metric type selected for a run. -/
inductive MetricType where
  | RMSD
  | TFD
deriving DecidableEq

/-- The argparse handling of the two mode flags, scanned over the flag
tokens of an invocation starting from the `(rmsd, tfd)` defaults
`(False, False)`: each occurrence of `--rmsd` or `--tfd` stores `True`
into its flag; an unknown token is a parse error.  No exclusion check
exists in the source. -/
def parse_mode_flags : List String → Bool × Bool → Option (Bool × Bool)
  | [], acc => some acc
  | tok :: rest, acc =>
    if tok = "--rmsd" then parse_mode_flags rest (true, acc.2)
    else if tok = "--tfd" then parse_mode_flags rest (acc.1, true)
    else none

/-- The `metric_type` dispatch (lines 354-359): `args.rmsd` is consulted
first, then `args.tfd`; `none` stands for the `pass` branch that leaves
`metric_type` unassigned. -/
def select_metric (rmsd tfd : Bool) : Option MetricType :=
  if rmsd then some MetricType.RMSD
  else if tfd then some MetricType.TFD
  else none

/-- Counterexample to **C9** as stated: an invocation CAN supply both
`--rmsd` and `--tfd`; the parser accepts the pair of flags and sets both
to true. -/
theorem analyzer_mode_flags_counterexample :
    parse_mode_flags ["--rmsd", "--tfd"] (false, false) ≠ none
    ∧ parse_mode_flags ["--rmsd", "--tfd"] (false, false) = some (true, true) :=
  ⟨by decide, rfl⟩

/-- **C9** (amended): the two mode selectors are independent `store_true`
flags, not a mutually exclusive group: supplying both is accepted, and
RMSD then takes precedence in the metric dispatch; supplying exactly one
flag selects the corresponding metric type, and supplying neither leaves
the metric type unassigned. -/
theorem analyzer_mode_flags_independent :
    parse_mode_flags ["--rmsd", "--tfd"] (false, false) = some (true, true)
    ∧ parse_mode_flags ["--tfd", "--rmsd"] (false, false) = some (true, true)
    ∧ select_metric true true = some MetricType.RMSD
    ∧ select_metric true false = some MetricType.RMSD
    ∧ select_metric false true = some MetricType.TFD
    ∧ select_metric false false = none :=
  ⟨rfl, rfl, rfl, rfl, rfl, rfl⟩

end TailedParameters

namespace MinimizeFFS

/-! ### The minimizer CLI `main` (minimize_ffs.py lines 272-350)

`main` opens the input stream (raising `FileNotFoundError` when the input
cannot be opened, line 277), refuses to overwrite an existing output file
(raising `FileExistsError`, lines 283-285), opens the output stream
(fatal toolkit error when it cannot be opened, lines 286-287), and only
then loops over the molecules.  Per-molecule charging, minimization and
writing are delegated to the external engines, abstracted here by a
`process` function returning the records written for one molecule. -/

/-- The Python exceptions and the fatal toolkit abort that `main` can
raise before its loop. -/
inductive PyError where
  | FileNotFoundError
  | FileExistsError
  | Fatal
deriving DecidableEq

/-- The parts of the file system state that `main` consults before
processing. -/
structure FileSystem where
  inputReadable : Bool
  outputExists : Bool
  outputWritable : Bool
deriving DecidableEq

/-- `main` (lines 272-350): the three checks in source order, then the
molecule loop; the result is the list of records written to the output
stream together with the raised error, if any. -/
def minimize_main {M W : Type} (process : M → List W) (fs : FileSystem) (mols : List M) :
    List W × Option PyError :=
  if !fs.inputReadable then ([], some PyError.FileNotFoundError)
  else if fs.outputExists then ([], some PyError.FileExistsError)
  else if !fs.outputWritable then ([], some PyError.Fatal)
  else (mols.foldl (fun acc m => acc ++ process m) [], none)

/-- Counterexample to **C8** as stated: with a readable input and an
existing output file, `main` fails with `FileExistsError`, not with a
file-not-found condition. -/
theorem minimize_overwrite_counterexample :
    (minimize_main (fun m : ℕ => [m]) (FileSystem.mk true true true) [5]).2
        = some PyError.FileExistsError
    ∧ (minimize_main (fun m : ℕ => [m]) (FileSystem.mk true true true) [5]).2
        ≠ some PyError.FileNotFoundError :=
  ⟨rfl, by decide⟩

/-- **C8** (amended): when the output file already exists (and the input
is readable, since the input check runs first), `main` raises
`FileExistsError` — refusing to overwrite — before processing any
molecule, writing no output; when the input is unreadable it raises
`FileNotFoundError`, likewise before any processing. -/
theorem minimize_main_aborts_before_processing {M W : Type} (process : M → List W)
    (fs : FileSystem) (mols : List M) :
    (fs.inputReadable = false →
        minimize_main process fs mols = ([], some PyError.FileNotFoundError))
    ∧ (fs.inputReadable = true → fs.outputExists = true →
        minimize_main process fs mols = ([], some PyError.FileExistsError)) := by
  constructor
  · intro h
    simp [minimize_main, h]
  · intro h1 h2
    simp [minimize_main, h1, h2]

/-- Witness for **C8** (amended) at a concrete file-system state. -/
theorem minimize_main_aborts_before_processing_witness :
    ((FileSystem.mk true true true).inputReadable = true)
    ∧ ((FileSystem.mk true true true).outputExists = true)
    ∧ minimize_main (fun m : ℕ => [m]) (FileSystem.mk true true true) [5]
        = ([], some PyError.FileExistsError) :=
  ⟨rfl, rfl,
    (minimize_main_aborts_before_processing (fun m : ℕ => [m])
      (FileSystem.mk true true true) [5]).2 rfl rfl⟩

end MinimizeFFS
